import Mathlib

/-!
# Verification of the hsd-auction-notify indexing engine

A shallow embedding of the auction index (`lib/auctiondb.js`), the block
classifier (the chain `connect` handler in `lib/http.js`), the websocket
fan-out (`initSockets`/`handleAuth` in `lib/http.js`), the HTTP options
constructor (`HTTPOptions` in `lib/http.js`) and the byte-exact key layout
(`lib/layout.js` over the `bdb` key codec), together with theorems settling
the specified properties of each component.

Conventions of the embedding:
* JavaScript `null` is `Option.none`; a fallible operation returns an
  `Option` result (`addBid` resolves `null` or `true`, `removeBid` resolves
  `null`, `false` or `true`).
* `bcrypto` `BN` counter values are embedded as exact integers (`Int`);
  `iadd`/`isub` are exact integer arithmetic.  The byte encoding of a
  counter value is not modelled, since no settled property depends on the
  byte representation of a counter (the byte representation of *keys* is
  modelled separately for the range-scan properties).
* The `bdb` batch (`start`/`put`/`del`/`commit`) is atomic: a mutation is
  parametrised by the commit verdict `ok`; on `ok = false` the batch write
  fails, nothing is applied, and the caller receives the failure result
  produced by `AuctionDB.commit` (which catches the store error).
-/

namespace AuctionNotify

/-- An outpoint `{hash, index}`: a 32-byte transaction hash (a byte list)
and an unsigned 32-bit output index. -/
structure Outpoint where
  hash : List Nat
  index : Nat
deriving DecidableEq, Repr

/-- Lookup in an association list of counter records (`b[name] -> count`,
`r[name] -> count`).  `none` is an absent record (the store's `get`
returning nothing). -/
def getRec : List (String × Int) → String → Option Int
  | [], _ => none
  | (k, v) :: rest, name => if k = name then some v else getRec rest name

/-- `put` of a counter record: overwrite the record for `name` if present,
else append it. -/
def putRec : List (String × Int) → String → Int → List (String × Int)
  | [], name, v => [(name, v)]
  | (k, w) :: rest, name, v =>
    if k = name then (name, v) :: rest else (k, w) :: putRec rest name v

/-- `put` of a membership key (`B[name][hash][index]` / `R[...]`): the store
is a key set, so a repeated `put` of the same key is the identity. -/
def insKey (l : List (String × Outpoint)) (e : String × Outpoint) :
    List (String × Outpoint) :=
  if e ∈ l then l else e :: l

/-- `del` of a membership key: drop the key from the store's key set (the
first occurrence; the key set never holds duplicates). -/
def delKey : List (String × Outpoint) → (String × Outpoint) →
    List (String × Outpoint)
  | [], _ => []
  | x :: t, e => if x = e then t else x :: delKey t e

/-- The state of the AuctionDB store: the tip record `T`, the bid counter
records `b[name]`, the bid membership keys `B[name][hash][index]`, and the
symmetric reveal records `r`/`R`. -/
structure DBState where
  tip : Option (List Nat) := none
  bidCounts : List (String × Int) := []
  bidKeys : List (String × Outpoint) := []
  revealCounts : List (String × Int) := []
  revealKeys : List (String × Outpoint) := []
deriving DecidableEq, Repr

/-- A freshly opened store: no records at all. -/
def emptyDB : DBState := {}

/-- `AuctionDB.getBidCount` (auctiondb.js:121-129): read `b[name]`; if the
raw value is absent return `null`, else the decoded counter. -/
def getBidCount (s : DBState) (name : String) : Option Int :=
  getRec s.bidCounts name

/-- `AuctionDB.getRevealCount` (auctiondb.js:207-215). -/
def getRevealCount (s : DBState) (name : String) : Option Int :=
  getRec s.revealCounts name

/-- `AuctionDB.addBid` (auctiondb.js:132-154): read the current count,
treat `null` as zero (`if (!count) count = new BN(0)`; a `BN` object is
always truthy, so only `null` is replaced), increment, and write the
updated counter together with the membership key in one batch.  `ok` is
the commit verdict: on failure `commit` catches the store error and the
call resolves `null` with nothing applied. -/
def addBid (ok : Bool) (s : DBState) (name : String) (o : Outpoint) :
    Option Bool × DBState :=
  let count := (getBidCount s name).getD 0 + 1
  if ok then
    (some true,
      { s with
        bidCounts := putRec s.bidCounts name count
        bidKeys := insKey s.bidKeys (name, o) })
  else (none, s)

/-- `AuctionDB.removeBid` (auctiondb.js:156-178): if `getBidCount` resolved
`null` (no `b[name]` record) resolve `null`; otherwise decrement the
counter and delete the membership key in one batch (membership itself is
never checked).  On commit failure the call resolves `false` with nothing
applied. -/
def removeBid (ok : Bool) (s : DBState) (name : String) (o : Outpoint) :
    Option Bool × DBState :=
  match getBidCount s name with
  | none => (none, s)
  | some c =>
    if ok then
      (some true,
        { s with
          bidCounts := putRec s.bidCounts name (c - 1)
          bidKeys := delKey s.bidKeys (name, o) })
    else (some false, s)

/-- `AuctionDB.addReveal` (auctiondb.js:217-239), symmetric to `addBid`. -/
def addReveal (ok : Bool) (s : DBState) (name : String) (o : Outpoint) :
    Option Bool × DBState :=
  let count := (getRevealCount s name).getD 0 + 1
  if ok then
    (some true,
      { s with
        revealCounts := putRec s.revealCounts name count
        revealKeys := insKey s.revealKeys (name, o) })
  else (none, s)

/-- `AuctionDB.removeReveal` (auctiondb.js:241-263), symmetric to
`removeBid`. -/
def removeReveal (ok : Bool) (s : DBState) (name : String) (o : Outpoint) :
    Option Bool × DBState :=
  match getRevealCount s name with
  | none => (none, s)
  | some c =>
    if ok then
      (some true,
        { s with
          revealCounts := putRec s.revealCounts name (c - 1)
          revealKeys := delKey s.revealKeys (name, o) })
    else (some false, s)

/-- `AuctionDB.getBids` (auctiondb.js:180-195): the range scan over
`B[name][*][*]`, returning the outpoints recorded under `name`. -/
def getBids (s : DBState) (name : String) : List Outpoint :=
  (s.bidKeys.filter (fun e => e.1 = name)).map (·.2)

/-- `AuctionDB.getReveals` (auctiondb.js:265-280). -/
def getReveals (s : DBState) (name : String) : List Outpoint :=
  (s.revealKeys.filter (fun e => e.1 = name)).map (·.2)

/-- `AuctionDB.hasBid` (auctiondb.js:197-205). -/
def hasBid (s : DBState) (name : String) (o : Outpoint) : Bool :=
  (name, o) ∈ s.bidKeys

/-- `AuctionDB.hasReveal` (auctiondb.js:282-290). -/
def hasReveal (s : DBState) (name : String) (o : Outpoint) : Bool :=
  (name, o) ∈ s.revealKeys

/-! ## Association-list lemmas -/

theorem getRec_putRec_same (l : List (String × Int)) (k : String) (v : Int) :
    getRec (putRec l k v) k = some v := by
  induction l with
  | nil => simp [putRec, getRec]
  | cons hd tl ih =>
    obtain ⟨k', w⟩ := hd
    by_cases h : k' = k
    · simp [putRec, h, getRec]
    · simp [putRec, h, getRec, ih]

theorem getRec_putRec_other (l : List (String × Int)) (k m : String)
    (v : Int) (h : m ≠ k) : getRec (putRec l k v) m = getRec l m := by
  induction l with
  | nil => simp [putRec, getRec, Ne.symm h]
  | cons hd tl ih =>
    obtain ⟨k', w⟩ := hd
    by_cases hk : k' = k
    · subst hk
      simp [putRec, getRec, Ne.symm h]
    · by_cases hm : k' = m <;> simp [putRec, hk, getRec, hm, ih, h]

theorem mem_insKey_self (l : List (String × Outpoint)) (e : String × Outpoint) :
    e ∈ insKey l e := by
  unfold insKey
  split
  · assumption
  · exact List.mem_cons_self e l

theorem filter_insKey_other (l : List (String × Outpoint)) (n : String)
    (o : Outpoint) (m : String) (h : n ≠ m) :
    (insKey l (n, o)).filter (fun e => e.1 = m) = l.filter (fun e => e.1 = m) := by
  unfold insKey
  split
  · rfl
  · simp [List.filter_cons, h]

theorem filter_insKey_fresh (l : List (String × Outpoint)) (n : String)
    (o : Outpoint) (h : (n, o) ∉ l) :
    (insKey l (n, o)).filter (fun e => e.1 = n) =
      (n, o) :: l.filter (fun e => e.1 = n) := by
  unfold insKey
  simp [h, List.filter_cons]

/-! ## C7: `addMember` is an atomic read-increment-write batch whose failure
is a result, not a fault, and leaves the prior state untouched -/

/-- C7 — `addBid`/`addReveal` (auctiondb.js:132-154, 217-239, with
`AuctionDB.commit` auctiondb.js:65-76) read the current count, increment it
by one, and write the updated counter together with the new membership key
in one atomic batch; a failed commit is reported as the `null` result (no
fault) and leaves the store exactly as it was; a successful commit writes
exactly the incremented counter and the membership key, touching nothing
else. -/
theorem c7_addMember_atomic_batch (s : DBState) (n : String) (o : Outpoint) :
    (addBid false s n o = (none, s)) ∧
    (addReveal false s n o = (none, s)) ∧
    ((addBid true s n o).1 = some true) ∧
    (getBidCount (addBid true s n o).2 n = some ((getBidCount s n).getD 0 + 1)) ∧
    (hasBid (addBid true s n o).2 n o = true) ∧
    ((addBid true s n o).2.tip = s.tip) ∧
    ((addBid true s n o).2.revealCounts = s.revealCounts) ∧
    ((addBid true s n o).2.revealKeys = s.revealKeys) ∧
    (∀ m, m ≠ n →
      getBidCount (addBid true s n o).2 m = getBidCount s m ∧
      getBids (addBid true s n o).2 m = getBids s m) ∧
    ((addReveal true s n o).1 = some true) ∧
    (getRevealCount (addReveal true s n o).2 n =
      some ((getRevealCount s n).getD 0 + 1)) ∧
    (hasReveal (addReveal true s n o).2 n o = true) ∧
    ((addReveal true s n o).2.tip = s.tip) ∧
    ((addReveal true s n o).2.bidCounts = s.bidCounts) ∧
    ((addReveal true s n o).2.bidKeys = s.bidKeys) ∧
    (∀ m, m ≠ n →
      getRevealCount (addReveal true s n o).2 m = getRevealCount s m ∧
      getReveals (addReveal true s n o).2 m = getReveals s m) := by
  refine ⟨rfl, rfl, rfl, ?_, ?_, rfl, rfl, rfl, ?_, rfl, ?_, ?_, rfl, rfl, rfl,
    ?_⟩
  · exact getRec_putRec_same _ _ _
  · simp [hasBid, addBid, mem_insKey_self]
  · intro m hm
    constructor
    · exact getRec_putRec_other _ _ _ _ hm
    · simp only [getBids, addBid, if_true]
      rw [filter_insKey_other _ _ _ _ (Ne.symm hm)]
  · exact getRec_putRec_same _ _ _
  · simp [hasReveal, addReveal, mem_insKey_self]
  · intro m hm
    constructor
    · exact getRec_putRec_other _ _ _ _ hm
    · simp only [getReveals, addReveal, if_true]
      rw [filter_insKey_other _ _ _ _ (Ne.symm hm)]

/-- Witness for C7 at concrete inputs, exercising both `addBid` and
`addReveal`. -/
theorem c7_witness :
    (addBid false emptyDB "a" ⟨List.replicate 32 0, 0⟩ = (none, emptyDB)) ∧
    (addReveal false emptyDB "a" ⟨List.replicate 32 0, 0⟩ = (none, emptyDB)) ∧
    ((addReveal true emptyDB "a" ⟨List.replicate 32 0, 0⟩).1 = some true) ∧
    (hasReveal (addReveal true emptyDB "a" ⟨List.replicate 32 0, 0⟩).2 "a"
      ⟨List.replicate 32 0, 0⟩ = true) ∧
    (getBidCount (addBid true emptyDB "a" ⟨List.replicate 32 0, 0⟩).2 "b" =
      getBidCount emptyDB "b") ∧
    (getReveals (addReveal true emptyDB "a" ⟨List.replicate 32 0, 0⟩).2 "b" =
      getReveals emptyDB "b") := by
  have h := c7_addMember_atomic_batch emptyDB "a" ⟨List.replicate 32 0, 0⟩
  refine ⟨h.1, h.2.1, h.2.2.2.2.2.2.2.2.2.1, h.2.2.2.2.2.2.2.2.2.2.2.1,
    (h.2.2.2.2.2.2.2.2.1 "b" (by decide)).1,
    (h.2.2.2.2.2.2.2.2.2.2.2.2.2.2.2 "b" (by decide)).2⟩

/-! ## C8: the count query on an absent record -/

/-- C8 counterexample — on a store with no counter record for `"foo"`, the
count queries resolve JavaScript `null` (embedded `none`), not the unsigned
integer `0` the claim states. -/
theorem c8_counterexample :
    getBidCount emptyDB "foo" = none ∧
    getBidCount emptyDB "foo" ≠ some 0 ∧
    getRevealCount emptyDB "foo" = none ∧
    getRevealCount emptyDB "foo" ≠ some 0 := by
  decide

/-- C8 amended — when no counter record exists for a name,
`getBidCount`/`getRevealCount` (auctiondb.js:121-129, 207-215) resolve
`null` (not `0`, and distinguishable from a stored `0`); the add
operations coerce the `null` to zero, so a first add stores count 1. -/
theorem c8_absent_count_resolves_null (s : DBState) (n : String) (o : Outpoint)
    (hb : getRec s.bidCounts n = none) (hr : getRec s.revealCounts n = none) :
    getBidCount s n = none ∧ getBidCount s n ≠ some 0 ∧
    getRevealCount s n = none ∧ getRevealCount s n ≠ some 0 ∧
    getBidCount (addBid true s n o).2 n = some 1 ∧
    getRevealCount (addReveal true s n o).2 n = some 1 := by
  refine ⟨hb, ?_, hr, ?_, ?_, ?_⟩
  · rw [show getBidCount s n = getRec s.bidCounts n from rfl, hb]; simp
  · rw [show getRevealCount s n = getRec s.revealCounts n from rfl, hr]; simp
  · rw [show getBidCount (addBid true s n o).2 n =
      getRec (putRec s.bidCounts n ((getBidCount s n).getD 0 + 1)) n from rfl]
    rw [getRec_putRec_same]
    rw [show getBidCount s n = getRec s.bidCounts n from rfl, hb]
    decide
  · rw [show getRevealCount (addReveal true s n o).2 n =
      getRec (putRec s.revealCounts n ((getRevealCount s n).getD 0 + 1)) n from rfl]
    rw [getRec_putRec_same]
    rw [show getRevealCount s n = getRec s.revealCounts n from rfl, hr]
    decide

/-- Witness for C8's amended theorem at a concrete input. -/
theorem c8_witness :
    getBidCount emptyDB "foo" = none ∧
    getBidCount (addBid true emptyDB "foo" ⟨List.replicate 32 0, 0⟩).2 "foo" =
      some 1 := by
  refine ⟨?_, ?_⟩
  · exact (c8_absent_count_resolves_null emptyDB "foo"
      ⟨List.replicate 32 0, 0⟩ rfl rfl).1
  · exact (c8_absent_count_resolves_null emptyDB "foo"
      ⟨List.replicate 32 0, 0⟩ rfl rfl).2.2.2.2.1

/-! ## C3: `removeMember` and the "not found" guard -/

/-- One mutating AuctionDB call. -/
inductive DBOp
  | addB (n : String) (o : Outpoint)
  | remB (n : String) (o : Outpoint)
  | addR (n : String) (o : Outpoint)
  | remR (n : String) (o : Outpoint)
deriving DecidableEq, Repr

/-- Apply one mutating call with commit verdict `ok`, keeping the resulting
state. -/
def applyOp (s : DBState) : DBOp × Bool → DBState
  | (.addB n o, ok) => (addBid ok s n o).2
  | (.remB n o, ok) => (removeBid ok s n o).2
  | (.addR n o, ok) => (addReveal ok s n o).2
  | (.remR n o, ok) => (removeReveal ok s n o).2

/-- Run a sequence of mutating calls (each tagged with its commit
verdict). -/
def runOps (s : DBState) : List (DBOp × Bool) → DBState
  | [] => s
  | e :: rest => runOps (applyOp s e) rest

/-- An operation is *proper* at a state when an add inserts a fresh
(non-member) outpoint and a remove targets a current member. -/
def properOp (s : DBState) : DBOp → Bool
  | .addB n o => !decide ((n, o) ∈ s.bidKeys)
  | .remB n o => decide ((n, o) ∈ s.bidKeys)
  | .addR n o => !decide ((n, o) ∈ s.revealKeys)
  | .remR n o => decide ((n, o) ∈ s.revealKeys)

/-- A run is proper when every operation is proper at the state it is
applied to. -/
def properRun (s : DBState) : List (DBOp × Bool) → Bool
  | [] => true
  | (op, ok) :: rest => properOp s op && properRun (applyOp s (op, ok)) rest

/-- The count/membership coherence invariant for every name: the cached
counter (with `null` read as 0) equals the number of membership records,
and an absent counter record means no membership records. -/
def dbInv (s : DBState) : Prop :=
  ∀ n : String,
    ((getBidCount s n).getD 0 = ((getBids s n).length : Int)) ∧
    (getBidCount s n = none → getBids s n = []) ∧
    ((getRevealCount s n).getD 0 = ((getReveals s n).length : Int)) ∧
    (getRevealCount s n = none → getReveals s n = [])

theorem filter_delKey_neg (p : String × Outpoint → Bool)
    (a : String × Outpoint) (l : List (String × Outpoint))
    (hp : p a = false) : (delKey l a).filter p = l.filter p := by
  induction l with
  | nil => rfl
  | cons b t ih =>
    by_cases hb : b = a
    · subst hb
      simp [delKey, List.filter_cons, hp]
    · simp only [delKey, if_neg hb, List.filter_cons]
      cases hpb : p b <;> simp [ih]

theorem length_filter_delKey (p : String × Outpoint → Bool)
    (a : String × Outpoint) (l : List (String × Outpoint))
    (ha : a ∈ l) (hp : p a = true) :
    ((delKey l a).filter p).length + 1 = (l.filter p).length := by
  induction l with
  | nil => cases ha
  | cons b t ih =>
    by_cases hb : b = a
    · subst hb
      simp [delKey, List.filter_cons, hp]
    · have ha' : a ∈ t := by
        rcases List.mem_cons.mp ha with h | h
        · exact absurd h.symm hb
        · exact h
      simp only [delKey, if_neg hb, List.filter_cons]
      cases hpb : p b
      · simpa using ih ha'
      · simpa using ih ha'


theorem dbInv_emptyDB : dbInv emptyDB := by
  intro n
  refine ⟨?_, fun _ => rfl, ?_, fun _ => rfl⟩ <;> rfl

/-- One proper operation (fresh add or member remove) preserves the
count/membership invariant, whatever the commit verdict. -/
theorem dbInv_applyOp (s : DBState) (op : DBOp) (ok : Bool)
    (hinv : dbInv s) (hprop : properOp s op = true) :
    dbInv (applyOp s (op, ok)) := by
  cases op with
  | addB n o =>
    cases ok with
    | false => simpa [applyOp, addBid] using hinv
    | true =>
      have hmem : (n, o) ∉ s.bidKeys := by simpa [properOp] using hprop
      have e1 : getBidCount (applyOp s (.addB n o, true)) n =
          some ((getBidCount s n).getD 0 + 1) := by
        simp only [applyOp, addBid, if_true, getBidCount]
        exact getRec_putRec_same _ _ _
      have e2 : getBids (applyOp s (.addB n o, true)) n = o :: getBids s n := by
        simp only [applyOp, addBid, if_true, getBids]
        rw [filter_insKey_fresh _ _ _ hmem]
        rfl
      have e3 : ∀ m, m ≠ n →
          getBidCount (applyOp s (.addB n o, true)) m = getBidCount s m := by
        intro m hm
        simp only [applyOp, addBid, if_true, getBidCount]
        exact getRec_putRec_other _ _ _ _ hm
      have e4 : ∀ m, m ≠ n →
          getBids (applyOp s (.addB n o, true)) m = getBids s m := by
        intro m hm
        simp only [applyOp, addBid, if_true, getBids]
        rw [filter_insKey_other _ _ _ _ (Ne.symm hm)]
      have e5 : ∀ m, getRevealCount (applyOp s (.addB n o, true)) m =
          getRevealCount s m := fun _ => rfl
      have e6 : ∀ m, getReveals (applyOp s (.addB n o, true)) m =
          getReveals s m := fun _ => rfl
      intro m
      by_cases hm : m = n
      · subst hm
        obtain ⟨h1, _, h3, h4⟩ := hinv m
        refine ⟨?_, ?_, ?_, ?_⟩
        · rw [e1, e2]
          simp only [Option.getD_some, List.length_cons]
          rw [h1]
          push_cast
          ring
        · rw [e1]; intro h; cases h
        · rw [e5 m, e6 m]; exact h3
        · rw [e5 m, e6 m]; exact h4
      · obtain ⟨h1, h2, h3, h4⟩ := hinv m
        rw [e3 m hm, e4 m hm, e5 m, e6 m]
        exact ⟨h1, h2, h3, h4⟩
  | remB n o =>
    cases ok with
    | false =>
      have : applyOp s (.remB n o, false) = s := by
        cases h : getBidCount s n <;> simp [applyOp, removeBid, h]
      rw [this]; exact hinv
    | true =>
      have hmem : (n, o) ∈ s.bidKeys := by simpa [properOp] using hprop
      have homem : o ∈ getBids s n := by
        simp only [getBids, List.mem_map]
        exact ⟨(n, o), List.mem_filter.mpr ⟨hmem, by simp⟩, rfl⟩
      obtain ⟨c, hc⟩ : ∃ c, getBidCount s n = some c := by
        cases h : getBidCount s n with
        | none =>
          have := (hinv n).2.1 h
          rw [this] at homem
          cases homem
        | some c => exact ⟨c, rfl⟩
      have hstate : applyOp s (.remB n o, true) =
          { s with
            bidCounts := putRec s.bidCounts n (c - 1)
            bidKeys := delKey s.bidKeys (n, o) } := by
        simp [applyOp, removeBid, hc]
      have hlen : ((delKey s.bidKeys (n, o)).filter
            (fun e => e.1 = n)).length + 1 =
          (s.bidKeys.filter (fun e => e.1 = n)).length :=
        length_filter_delKey _ _ _ hmem (decide_eq_true rfl)
      intro m
      by_cases hm : m = n
      · subst hm
        obtain ⟨h1, _, h3, h4⟩ := hinv m
        rw [hc] at h1
        refine ⟨?_, ?_, ?_, ?_⟩
        · rw [hstate]
          show (getRec (putRec s.bidCounts m (c - 1)) m).getD 0 =
            (((delKey s.bidKeys (m, o)).filter (fun e => e.1 = m)).map
              (·.2)).length
          rw [getRec_putRec_same]
          simp only [Option.getD_some, List.length_map]
          simp only [Option.getD_some, getBids, List.length_map] at h1
          have hlen' : ((delKey s.bidKeys (m, o)).filter
              (fun e => e.1 = m)).length + 1 =
            (s.bidKeys.filter (fun e => e.1 = m)).length := hlen
          omega
        · rw [hstate]
          show getRec (putRec s.bidCounts m (c - 1)) m = none → _
          rw [getRec_putRec_same]
          intro h; cases h
        · rw [hstate] at *
          exact h3
        · rw [hstate] at *
          exact h4
      · obtain ⟨h1, h2, h3, h4⟩ := hinv m
        rw [hstate]
        have f1 : getRec (putRec s.bidCounts n (c - 1)) m =
            getRec s.bidCounts m := getRec_putRec_other _ _ _ _ hm
        have f2 : (delKey s.bidKeys (n, o)).filter (fun e => e.1 = m) =
            s.bidKeys.filter (fun e => e.1 = m) :=
          filter_delKey_neg _ _ _ (by simp [Ne.symm hm])
        refine ⟨?_, ?_, h3, h4⟩
        · show (getRec (putRec s.bidCounts n (c - 1)) m).getD 0 =
            (((delKey s.bidKeys (n, o)).filter (fun e => e.1 = m)).map
              (·.2)).length
          rw [f1, f2]
          exact h1
        · show getRec (putRec s.bidCounts n (c - 1)) m = none →
            ((delKey s.bidKeys (n, o)).filter (fun e => e.1 = m)).map
              (·.2) = []
          rw [f1, f2]
          exact h2
  | addR n o =>
    cases ok with
    | false => simpa [applyOp, addReveal] using hinv
    | true =>
      have hmem : (n, o) ∉ s.revealKeys := by simpa [properOp] using hprop
      have e1 : getRevealCount (applyOp s (.addR n o, true)) n =
          some ((getRevealCount s n).getD 0 + 1) := by
        simp only [applyOp, addReveal, if_true, getRevealCount]
        exact getRec_putRec_same _ _ _
      have e2 : getReveals (applyOp s (.addR n o, true)) n =
          o :: getReveals s n := by
        simp only [applyOp, addReveal, if_true, getReveals]
        rw [filter_insKey_fresh _ _ _ hmem]
        rfl
      have e3 : ∀ m, m ≠ n →
          getRevealCount (applyOp s (.addR n o, true)) m =
            getRevealCount s m := by
        intro m hm
        simp only [applyOp, addReveal, if_true, getRevealCount]
        exact getRec_putRec_other _ _ _ _ hm
      have e4 : ∀ m, m ≠ n →
          getReveals (applyOp s (.addR n o, true)) m = getReveals s m := by
        intro m hm
        simp only [applyOp, addReveal, if_true, getReveals]
        rw [filter_insKey_other _ _ _ _ (Ne.symm hm)]
      have e5 : ∀ m, getBidCount (applyOp s (.addR n o, true)) m =
          getBidCount s m := fun _ => rfl
      have e6 : ∀ m, getBids (applyOp s (.addR n o, true)) m =
          getBids s m := fun _ => rfl
      intro m
      by_cases hm : m = n
      · subst hm
        obtain ⟨h1, h2, h3, _⟩ := hinv m
        refine ⟨?_, ?_, ?_, ?_⟩
        · rw [e5 m, e6 m]; exact h1
        · rw [e5 m, e6 m]; exact h2
        · rw [e1, e2]
          simp only [Option.getD_some, List.length_cons]
          rw [h3]
          push_cast
          ring
        · rw [e1]; intro h; cases h
      · obtain ⟨h1, h2, h3, h4⟩ := hinv m
        rw [e3 m hm, e4 m hm, e5 m, e6 m]
        exact ⟨h1, h2, h3, h4⟩
  | remR n o =>
    cases ok with
    | false =>
      have : applyOp s (.remR n o, false) = s := by
        cases h : getRevealCount s n <;> simp [applyOp, removeReveal, h]
      rw [this]; exact hinv
    | true =>
      have hmem : (n, o) ∈ s.revealKeys := by simpa [properOp] using hprop
      have homem : o ∈ getReveals s n := by
        simp only [getReveals, List.mem_map]
        exact ⟨(n, o), List.mem_filter.mpr ⟨hmem, by simp⟩, rfl⟩
      obtain ⟨c, hc⟩ : ∃ c, getRevealCount s n = some c := by
        cases h : getRevealCount s n with
        | none =>
          have := (hinv n).2.2.2 h
          rw [this] at homem
          cases homem
        | some c => exact ⟨c, rfl⟩
      have hstate : applyOp s (.remR n o, true) =
          { s with
            revealCounts := putRec s.revealCounts n (c - 1)
            revealKeys := delKey s.revealKeys (n, o) } := by
        simp [applyOp, removeReveal, hc]
      have hlen : ((delKey s.revealKeys (n, o)).filter
            (fun e => e.1 = n)).length + 1 =
          (s.revealKeys.filter (fun e => e.1 = n)).length :=
        length_filter_delKey _ _ _ hmem (decide_eq_true rfl)
      intro m
      by_cases hm : m = n
      · subst hm
        obtain ⟨h1, h2, h3, _⟩ := hinv m
        rw [hc] at h3
        refine ⟨?_, ?_, ?_, ?_⟩
        · rw [hstate] at *
          exact h1
        · rw [hstate] at *
          exact h2
        · rw [hstate]
          show (getRec (putRec s.revealCounts m (c - 1)) m).getD 0 =
            (((delKey s.revealKeys (m, o)).filter (fun e => e.1 = m)).map
              (·.2)).length
          rw [getRec_putRec_same]
          simp only [Option.getD_some, List.length_map]
          simp only [Option.getD_some, getReveals, List.length_map] at h3
          have hlen' : ((delKey s.revealKeys (m, o)).filter
              (fun e => e.1 = m)).length + 1 =
            (s.revealKeys.filter (fun e => e.1 = m)).length := hlen
          omega
        · rw [hstate]
          show getRec (putRec s.revealCounts m (c - 1)) m = none → _
          rw [getRec_putRec_same]
          intro h; cases h
      · obtain ⟨h1, h2, h3, h4⟩ := hinv m
        rw [hstate]
        have f1 : getRec (putRec s.revealCounts n (c - 1)) m =
            getRec s.revealCounts m := getRec_putRec_other _ _ _ _ hm
        have f2 : (delKey s.revealKeys (n, o)).filter (fun e => e.1 = m) =
            s.revealKeys.filter (fun e => e.1 = m) :=
          filter_delKey_neg _ _ _ (by simp [Ne.symm hm])
        refine ⟨h1, h2, ?_, ?_⟩
        · show (getRec (putRec s.revealCounts n (c - 1)) m).getD 0 =
            (((delKey s.revealKeys (n, o)).filter (fun e => e.1 = m)).map
              (·.2)).length
          rw [f1, f2]
          exact h3
        · show getRec (putRec s.revealCounts n (c - 1)) m = none → _
          rw [f1]
          intro h
          show ((delKey s.revealKeys (n, o)).filter (fun e => e.1 = m)).map
            (·.2) = []
          rw [f2]
          exact h4 h

/-- A proper run from an invariant-satisfying state preserves the
invariant. -/
theorem dbInv_runOps (s : DBState) (ops : List (DBOp × Bool))
    (hinv : dbInv s) (hrun : properRun s ops = true) :
    dbInv (runOps s ops) := by
  induction ops generalizing s with
  | nil => exact hinv
  | cons e rest ih =>
    obtain ⟨op, ok⟩ := e
    simp only [properRun, Bool.and_eq_true] at hrun
    exact ih _ (dbInv_applyOp s op ok hinv hrun.1) hrun.2

/-- C1 counterexample — two successful `addBid` calls for the *same*
outpoint: both commits succeed (`true` results), yet the stored counter is
2 while only one membership record exists, so
`count(N) == |listMembers(N)|` fails after a successfully committed
repeated `addMember`. -/
theorem c1_counterexample :
    ((addBid true emptyDB "a" ⟨List.replicate 32 0, 0⟩).1 = some true) ∧
    ((addBid true (addBid true emptyDB "a" ⟨List.replicate 32 0, 0⟩).2 "a"
        ⟨List.replicate 32 0, 0⟩).1 = some true) ∧
    (getBidCount (addBid true (addBid true emptyDB "a"
        ⟨List.replicate 32 0, 0⟩).2 "a" ⟨List.replicate 32 0, 0⟩).2 "a" =
      some 2) ∧
    ((getBids (addBid true (addBid true emptyDB "a"
        ⟨List.replicate 32 0, 0⟩).2 "a" ⟨List.replicate 32 0, 0⟩).2
        "a").length = 1) ∧
    ¬((getBidCount (addBid true (addBid true emptyDB "a"
        ⟨List.replicate 32 0, 0⟩).2 "a" ⟨List.replicate 32 0, 0⟩).2
          "a").getD 0 =
      ((getBids (addBid true (addBid true emptyDB "a"
        ⟨List.replicate 32 0, 0⟩).2 "a" ⟨List.replicate 32 0, 0⟩).2
          "a").length : Int)) := by
  decide

/-- C1 amended — for every name and every sequence of add/remove calls in
which each add inserts an outpoint that is not yet a member and each
remove targets a current member (with arbitrary per-call commit
verdicts), the stored counter (`null` read as 0) equals the number of
stored membership records; a repeated `addMember` of an existing member
breaks the equality (see the counterexample), so the invariant holds only
for such member-disjoint sequences. -/
theorem c1_count_matches_members (ops : List (DBOp × Bool))
    (hrun : properRun emptyDB ops = true) (n : String) :
    ((getBidCount (runOps emptyDB ops) n).getD 0 =
      ((getBids (runOps emptyDB ops) n).length : Int)) ∧
    ((getRevealCount (runOps emptyDB ops) n).getD 0 =
      ((getReveals (runOps emptyDB ops) n).length : Int)) := by
  obtain ⟨h1, _, h3, _⟩ := dbInv_runOps emptyDB ops dbInv_emptyDB hrun n
  exact ⟨h1, h3⟩

/-- Witness for C1's amended theorem: a concrete proper run (one fresh
add, one member remove, one fresh reveal add). -/
theorem c1_witness :
    (properRun emptyDB
      [(DBOp.addB "a" ⟨List.replicate 32 0, 0⟩, true),
       (DBOp.remB "a" ⟨List.replicate 32 0, 0⟩, true),
       (DBOp.addR "a" ⟨List.replicate 32 1, 1⟩, true)] = true) ∧
    ((getBidCount (runOps emptyDB
      [(DBOp.addB "a" ⟨List.replicate 32 0, 0⟩, true),
       (DBOp.remB "a" ⟨List.replicate 32 0, 0⟩, true),
       (DBOp.addR "a" ⟨List.replicate 32 1, 1⟩, true)]) "a").getD 0 =
      ((getBids (runOps emptyDB
      [(DBOp.addB "a" ⟨List.replicate 32 0, 0⟩, true),
       (DBOp.remB "a" ⟨List.replicate 32 0, 0⟩, true),
       (DBOp.addR "a" ⟨List.replicate 32 1, 1⟩, true)]) "a").length : Int)) := by
  refine ⟨by decide, ?_⟩
  exact (c1_count_matches_members
    [(DBOp.addB "a" ⟨List.replicate 32 0, 0⟩, true),
     (DBOp.remB "a" ⟨List.replicate 32 0, 0⟩, true),
     (DBOp.addR "a" ⟨List.replicate 32 1, 1⟩, true)] (by decide) "a").1

/-! ## The block classifier (the chain `connect` handler, http.js
`initRouter`) -/

/-- The covenant of an output, as probed by the handler's
`isNone`/`isBid`/`isReveal`/`isRegister`/`isRevoke` chain; every non-NONE
covenant carries the name hash read by `covenant.getHash(0)`.  `copen`
stands for any covenant kind the if/else chain does not test (OPEN among
them). -/
inductive Covenant
  | cnone
  | cbid (nameHash : List Nat)
  | creveal (nameHash : List Nat)
  | cregister (nameHash : List Nat)
  | crevoke (nameHash : List Nat)
  | copen (nameHash : List Nat)
deriving DecidableEq, Repr

/-- A transaction output: its covenant and its value. -/
structure Output where
  covenant : Covenant
  value : Int
deriving DecidableEq, Repr

/-- A transaction: its hash and outputs (walked in order with their
indices). -/
structure Tx where
  hash : List Nat
  outputs : List Output
deriving DecidableEq, Repr

/-- A connected block: its hash and transactions. -/
structure Block where
  hash : List Nat
  txs : List Tx
deriving DecidableEq, Repr

/-- A domain event emitted on the HTTP server object by the handler.  The
argument shapes follow the emitted payloads; `eopen` exists only because
`'open'` appears in the socket relay list (no classification branch emits
it). -/
inductive Event
  | ebid (name : String) (o : Outpoint) (value : Int)
  | ereveal (name : String) (o : Outpoint) (value : Int)
  | eregister (name : String) (o : Outpoint) (value : Int)
  | ebidBurned (name : String) (o : Outpoint) (value : Int)
  | erevoke (name : String) (o : Outpoint) (value : Int)
  | ebigSpend (o : Outpoint) (value : Int)
  | eblockStats (txCount opens bids reveals : Nat)
  | eopen (name : String)
deriving DecidableEq, Repr

/-- Whether an event is the `'bid burned'` event. -/
def Event.isBidBurned : Event → Bool
  | .ebidBurned _ _ _ => true
  | _ => false

/-- One observable step of the `connect` handler: a tip write attempt, an
indexing mutation attempt (with its commit verdict), or an event
emission. -/
inductive Action
  | aPutTip (h : List Nat) (ok : Bool)
  | aAddBid (n : String) (o : Outpoint) (ok : Bool)
  | aAddReveal (n : String) (o : Outpoint) (ok : Bool)
  | aEmit (e : Event)
deriving DecidableEq, Repr

/-- The external collaborators of the handler: the chain gateway's
name-state and coin lookups, the store's commit verdicts, the tip write
verdict, and `this.options.bigSpendValue` (an `Option` because the
`HTTPOptions` constructor never initializes that property — JavaScript
`undefined`). -/
structure ChainEnv where
  getNameState : List Nat → Option String
  getCoin : List Nat → Nat → Option Int
  commitOk : String → Outpoint → Bool
  tipOk : Bool
  bigSpendValue : Option Int

/-- JavaScript `value >= threshold` when the threshold may be `undefined`:
comparison with `undefined` coerces to `NaN` and is `false`. -/
def jsGE (v : Int) (threshold : Option Int) : Bool :=
  match threshold with
  | none => false
  | some t => v ≥ t

/-- Process one output of a transaction (http.js:117-183).  Returns the
updated store state, the ordered actions taken, and whether the handler
faulted on this output.  Faults come from the REGISTER branch: a `null`
count makes `bidCount.eq(revealCount)` throw, and the `bidCount >
revealCount` path evaluates `await adb.getBids(name)` where `adb` is an
unbound identifier (everywhere else the code uses `this.adb`), throwing a
`ReferenceError` before any coin query or `'bid burned'` emission. -/
def processOutput (env : ChainEnv) (s : DBState) (txid : List Nat) (i : Nat)
    (out : Output) : DBState × List Action × Bool :=
  let op : Outpoint := ⟨txid, i⟩
  match out.covenant with
  | .cnone =>
    if jsGE out.value env.bigSpendValue then
      (s, [.aEmit (.ebigSpend op out.value)], false)
    else (s, [], false)
  | .cbid nh =>
    match env.getNameState nh with
    | none => (s, [], false)
    | some name =>
      let ok := env.commitOk name op
      ((addBid ok s name op).2,
        [.aAddBid name op ok, .aEmit (.ebid name op out.value)], false)
  | .creveal nh =>
    match env.getNameState nh with
    | none => (s, [], false)
    | some name =>
      let ok := env.commitOk name op
      ((addReveal ok s name op).2,
        [.aAddReveal name op ok, .aEmit (.ereveal name op out.value)], false)
  | .cregister nh =>
    match env.getNameState nh with
    | none => (s, [], false)
    | some name =>
      match getBidCount s name, getRevealCount s name with
      | some bc, some rc =>
        if bc = rc then (s, [.aEmit (.eregister name op out.value)], false)
        else if bc < rc then
          (s, [.aEmit (.eregister name op out.value)], false)
        else (s, [.aEmit (.eregister name op out.value)], true)
      | _, _ => (s, [.aEmit (.eregister name op out.value)], true)
  | .crevoke nh =>
    match env.getNameState nh with
    | none => (s, [], false)
    | some name => (s, [.aEmit (.erevoke name op out.value)], false)
  | .copen nh =>
    match env.getNameState nh with
    | none => (s, [], false)
    | some _ => (s, [], false)

/-- Process the outputs of one transaction from index `i` on, stopping at
the first fault (the async handler's rejection abandons the rest of the
block). -/
def processOutputs (env : ChainEnv) (txid : List Nat) :
    Nat → DBState → List Output → DBState × List Action × Bool
  | _, s, [] => (s, [], false)
  | i, s, out :: rest =>
    let r := processOutput env s txid i out
    if r.2.2 then (r.1, r.2.1, true)
    else
      let r' := processOutputs env txid (i + 1) r.1 rest
      (r'.1, r.2.1 ++ r'.2.1, r'.2.2)

/-- Process the transactions of a block in order, stopping at the first
fault. -/
def processTxs (env : ChainEnv) :
    DBState → List Tx → DBState × List Action × Bool
  | s, [] => (s, [], false)
  | s, tx :: rest =>
    let r := processOutputs env tx.hash 0 s tx.outputs
    if r.2.2 then (r.1, r.2.1, true)
    else
      let r' := processTxs env r.1 rest
      (r'.1, r.2.1 ++ r'.2.1, r'.2.2)

/-- The outcome of the whole `connect` handler for one block. -/
structure RunResult where
  state : DBState
  trace : List Action
  faulted : Bool
deriving DecidableEq, Repr

/-- The `connect` handler (http.js:103-189): first `putTip(block.hash())`
(its failure is caught and only emitted as an `'error'`), then every
transaction and output in order, and — when no fault interrupted the
walk — the `'block stats'` emission with the never-incremented zero
stats. -/
def processBlock (env : ChainEnv) (s : DBState) (blk : Block) : RunResult :=
  let s0 := if env.tipOk then { s with tip := some blk.hash } else s
  let r := processTxs env s0 blk.txs
  ⟨r.1,
    Action.aPutTip blk.hash env.tipOk ::
      (r.2.1 ++ if r.2.2 then [] else [Action.aEmit (.eblockStats 0 0 0 0)]),
    r.2.2⟩

/-- The events emitted along a trace, in order. -/
def eventsOf (tr : List Action) : List Event :=
  tr.filterMap fun a =>
    match a with
    | .aEmit e => some e
    | _ => none

theorem eventsOf_append (a b : List Action) :
    eventsOf (a ++ b) = eventsOf a ++ eventsOf b := by
  simp [eventsOf]

/-- No single-output step ever emits the `'bid burned'` event: the only
code path that would (`this.emit('bid burned', ...)` inside the REGISTER
branch) sits after the faulting `await adb.getBids(name)`. -/
theorem noBurn_processOutput (env : ChainEnv) (s : DBState)
    (txid : List Nat) (i : Nat) (out : Output) :
    ∀ e ∈ eventsOf (processOutput env s txid i out).2.1,
      e.isBidBurned = false := by
  intro e he
  rcases out with ⟨cov, v⟩
  cases cov with
  | cnone =>
    simp only [processOutput] at he
    split at he <;> simp [eventsOf] at he
    subst he; rfl
  | cbid nh =>
    simp only [processOutput] at he
    cases hns : env.getNameState nh <;> rw [hns] at he <;>
      simp [eventsOf] at he
    subst he; rfl
  | creveal nh =>
    simp only [processOutput] at he
    cases hns : env.getNameState nh <;> rw [hns] at he <;>
      simp [eventsOf] at he
    subst he; rfl
  | cregister nh =>
    simp only [processOutput] at he
    cases hns : env.getNameState nh with
    | none => rw [hns] at he; simp [eventsOf] at he
    | some name =>
      rw [hns] at he
      dsimp only at he
      rcases hbc : getBidCount s name with _ | bc
      · rw [hbc] at he
        rcases hrc : getRevealCount s name with _ | rc <;> rw [hrc] at he <;>
          dsimp only at he <;> simp [eventsOf] at he <;> subst he <;> rfl
      · rw [hbc] at he
        rcases hrc : getRevealCount s name with _ | rc
        · rw [hrc] at he
          dsimp only at he
          simp [eventsOf] at he; subst he; rfl
        · rw [hrc] at he
          dsimp only at he
          split at he
          · simp [eventsOf] at he; subst he; rfl
          · split at he <;> simp [eventsOf] at he <;> subst he <;> rfl
  | crevoke nh =>
    simp only [processOutput] at he
    cases hns : env.getNameState nh <;> rw [hns] at he <;>
      simp [eventsOf] at he
    subst he; rfl
  | copen nh =>
    simp only [processOutput] at he
    cases hns : env.getNameState nh <;> rw [hns] at he <;>
      simp [eventsOf] at he

theorem noBurn_processOutputs (env : ChainEnv) (txid : List Nat)
    (outs : List Output) :
    ∀ i s, ∀ e ∈ eventsOf (processOutputs env txid i s outs).2.1,
      e.isBidBurned = false := by
  induction outs with
  | nil => intro i s e he; simp [processOutputs, eventsOf] at he
  | cons out rest ih =>
    intro i s e he
    simp only [processOutputs] at he
    split at he
    · exact noBurn_processOutput env s txid i out e he
    · rw [eventsOf_append] at he
      rcases List.mem_append.mp he with h | h
      · exact noBurn_processOutput env s txid i out e h
      · exact ih (i + 1) _ e h

theorem noBurn_processTxs (env : ChainEnv) (txs : List Tx) :
    ∀ s, ∀ e ∈ eventsOf (processTxs env s txs).2.1,
      e.isBidBurned = false := by
  induction txs with
  | nil => intro s e he; simp [processTxs, eventsOf] at he
  | cons tx rest ih =>
    intro s e he
    simp only [processTxs] at he
    split at he
    · exact noBurn_processOutputs env tx.hash tx.outputs 0 s e he
    · rw [eventsOf_append] at he
      rcases List.mem_append.mp he with h | h
      · exact noBurn_processOutputs env tx.hash tx.outputs 0 s e h
      · exact ih _ e h

theorem noBurn_processBlock (env : ChainEnv) (s : DBState) (blk : Block) :
    ∀ e ∈ eventsOf (processBlock env s blk).trace, e.isBidBurned = false := by
  intro e he
  have hform : eventsOf (processBlock env s blk).trace =
      eventsOf (processTxs env
        (if env.tipOk then { s with tip := some blk.hash } else s) blk.txs).2.1 ++
      eventsOf (if (processTxs env
          (if env.tipOk then { s with tip := some blk.hash } else s)
          blk.txs).2.2 then []
        else [Action.aEmit (.eblockStats 0 0 0 0)]) := by
    show eventsOf (Action.aPutTip blk.hash env.tipOk :: (_ ++ _)) = _
    simp only [eventsOf, List.filterMap_cons, List.filterMap_append]
  rw [hform] at he
  rcases List.mem_append.mp he with h | h
  · exact noBurn_processTxs env blk.txs _ e h
  · rcases hf : (processTxs env
        (if env.tipOk then { s with tip := some blk.hash } else s)
        blk.txs).2.2 <;> rw [hf] at h <;> simp [eventsOf] at h
    subst h; rfl
/-- A concrete chain environment: name hash `[1]` resolves to `"foo"`, the
coin of outpoint `(replicate 32 7, 0)` is present, every other coin is
absent, all commits and the tip write succeed, and `bigSpendValue` is the
uninitialized `undefined`. -/
def envW : ChainEnv where
  getNameState := fun nh => if nh = [1] then some "foo" else none
  getCoin := fun h i =>
    if h = List.replicate 32 7 ∧ i = 0 then some 1000 else none
  commitOk := fun _ _ => true
  tipOk := true
  bigSpendValue := none

/-- The burn-reconciliation scenario state: `"foo"` has two recorded bid
outpoints, one recorded reveal outpoint, bid count 2, reveal count 1. -/
def dbS4 : DBState where
  tip := none
  bidCounts := [("foo", 2)]
  bidKeys := [("foo", ⟨List.replicate 32 7, 0⟩),
              ("foo", ⟨List.replicate 32 8, 0⟩)]
  revealCounts := [("foo", 1)]
  revealKeys := [("foo", ⟨List.replicate 32 9, 0⟩)]

/-- C10 — the handler never emits `'bid burned'` for any environment,
state and block; moreover, whenever the REGISTER reconciliation reaches
`bidCount > revealCount`, the output's processing faults (on the unbound
identifier `adb` in `await adb.getBids(name)`, http.js:165) having emitted
only the REGISTER event, so the success path of the burn loop is
unreachable. -/
theorem c10_never_bid_burned (env : ChainEnv) (s : DBState) (blk : Block)
    (txid : List Nat) (i : Nat) (nh : List Nat) (value : Int)
    (name : String) (bc rc : Int) (h1 : env.getNameState nh = some name)
    (h2 : getBidCount s name = some bc)
    (h3 : getRevealCount s name = some rc) (h4 : rc < bc) :
    (∀ e ∈ eventsOf (processBlock env s blk).trace, e.isBidBurned = false) ∧
    ((processOutput env s txid i ⟨Covenant.cregister nh, value⟩).2.2 = true) ∧
    (eventsOf (processOutput env s txid i
        ⟨Covenant.cregister nh, value⟩).2.1 =
      [Event.eregister name ⟨txid, i⟩ value]) := by
  have hne : ¬bc = rc := by omega
  have hnlt : ¬bc < rc := by omega
  refine ⟨noBurn_processBlock env s blk, ?_, ?_⟩ <;>
    simp [processOutput, h1, h2, h3, hne, hnlt, eventsOf]

/-- Witness for C10 at the concrete burn scenario. -/
theorem c10_witness :
    ((processOutput envW dbS4 [2] 0 ⟨Covenant.cregister [1], 5⟩).2.2 = true) ∧
    (eventsOf (processOutput envW dbS4 [2] 0
        ⟨Covenant.cregister [1], 5⟩).2.1 =
      [Event.eregister "foo" ⟨[2], 0⟩ 5]) := by
  have h := c10_never_bid_burned envW dbS4 ⟨[3], []⟩ [2] 0 [1] 5 "foo" 2 1
    (by decide) (by decide) (by decide) (by decide)
  exact ⟨h.2.1, h.2.2⟩

/-- C2 counterexample — the exact scenario of the claim (2 recorded bids,
1 recorded reveal, the un-revealed bid's coin reported absent by the chain
gateway): processing the REGISTER output emits zero `'bid burned'` events
(the claim requires exactly one, for the absent-coin bid) and faults. -/
theorem c2_counterexample :
    (getBidCount dbS4 "foo" = some 2) ∧
    (getRevealCount dbS4 "foo" = some 1) ∧
    (hasBid dbS4 "foo" ⟨List.replicate 32 8, 0⟩ = true) ∧
    (envW.getCoin (List.replicate 32 8) 0 = none) ∧
    ((eventsOf (processOutput envW dbS4 [2] 0
        ⟨Covenant.cregister [1], 5⟩).2.1).countP Event.isBidBurned = 0) ∧
    ((processOutput envW dbS4 [2] 0 ⟨Covenant.cregister [1], 5⟩).2.2 =
      true) := by
  decide

/-- C2 amended — when the classifier processes a REGISTER output for a
name whose recorded bid count exceeds its recorded reveal count, it
faults on the unbound identifier `adb` before querying any coin: no
`BID_BURNED` event is emitted (for absent-coin bids or any other), the
store state is unchanged, and the only event emitted by the output is
`REGISTER`. -/
theorem c2_register_burn_scan_faults (env : ChainEnv) (s : DBState)
    (txid : List Nat) (i : Nat) (nh : List Nat) (value : Int)
    (name : String) (bc rc : Int) (h1 : env.getNameState nh = some name)
    (h2 : getBidCount s name = some bc)
    (h3 : getRevealCount s name = some rc) (h4 : rc < bc) :
    ((processOutput env s txid i ⟨Covenant.cregister nh, value⟩).2.2 = true) ∧
    ((eventsOf (processOutput env s txid i
        ⟨Covenant.cregister nh, value⟩).2.1).countP Event.isBidBurned = 0) ∧
    ((processOutput env s txid i ⟨Covenant.cregister nh, value⟩).1 = s) ∧
    (eventsOf (processOutput env s txid i
        ⟨Covenant.cregister nh, value⟩).2.1 =
      [Event.eregister name ⟨txid, i⟩ value]) := by
  have hne : ¬bc = rc := by omega
  have hnlt : ¬bc < rc := by omega
  refine ⟨?_, ?_, ?_, ?_⟩ <;>
    simp [processOutput, h1, h2, h3, hne, hnlt, eventsOf, Event.isBidBurned]

/-- Witness for C2's amended theorem at the concrete burn scenario. -/
theorem c2_witness :
    ((eventsOf (processOutput envW dbS4 [2] 0
        ⟨Covenant.cregister [1], 5⟩).2.1).countP Event.isBidBurned = 0) ∧
    ((processOutput envW dbS4 [2] 0 ⟨Covenant.cregister [1], 5⟩).1 =
      dbS4) := by
  have h := c2_register_burn_scan_faults envW dbS4 [2] 0 [1] 5 "foo" 2 1
    (by decide) (by decide) (by decide) (by decide)
  exact ⟨h.2.1, h.2.2.1⟩

/-! ## C4: ordering of the tip write against the block's mutations -/

/-- Whether an action is a successful tip persist. -/
def isTipWrite : Action → Bool
  | .aPutTip _ ok => ok
  | _ => false

/-- Whether an action is a committed index mutation (bid/reveal add). -/
def isMutation : Action → Bool
  | .aAddBid _ _ ok => ok
  | .aAddReveal _ _ ok => ok
  | _ => false

/-- The claim's ordering property over a handler trace: every persisted
tip write comes after every committed mutation. -/
def tipAfterMutations (tr : List Action) : Prop :=
  ∀ p ∈ tr.enum, ∀ q ∈ tr.enum,
    isTipWrite p.2 = true → isMutation q.2 = true → q.1 < p.1

theorem tip_processOutput (env : ChainEnv) (s : DBState) (txid : List Nat)
    (i : Nat) (out : Output) :
    (processOutput env s txid i out).1.tip = s.tip := by
  rcases out with ⟨cov, v⟩
  cases cov with
  | cnone => simp only [processOutput]; split <;> rfl
  | cbid nh =>
    simp only [processOutput]
    cases env.getNameState nh
    · rfl
    · simp only [addBid]
      split <;> rfl
  | creveal nh =>
    simp only [processOutput]
    cases env.getNameState nh
    · rfl
    · simp only [addReveal]
      split <;> rfl
  | cregister nh =>
    simp only [processOutput]
    cases env.getNameState nh with
    | none => rfl
    | some name =>
      dsimp only
      cases getBidCount s name <;> cases getRevealCount s name <;>
        dsimp only
      all_goals
        split
        · rfl
        · split <;> rfl
  | crevoke nh =>
    simp only [processOutput]
    cases env.getNameState nh <;> rfl
  | copen nh =>
    simp only [processOutput]
    cases env.getNameState nh <;> rfl

theorem tip_processOutputs (env : ChainEnv) (txid : List Nat)
    (outs : List Output) :
    ∀ i s, (processOutputs env txid i s outs).1.tip = s.tip := by
  induction outs with
  | nil => intro i s; rfl
  | cons out rest ih =>
    intro i s
    simp only [processOutputs]
    split
    · exact tip_processOutput env s txid i out
    · show (processOutputs env txid (i + 1)
        (processOutput env s txid i out).1 rest).1.tip = s.tip
      rw [ih (i + 1) _, tip_processOutput]

theorem tip_processTxs (env : ChainEnv) (txs : List Tx) :
    ∀ s, (processTxs env s txs).1.tip = s.tip := by
  induction txs with
  | nil => intro s; rfl
  | cons tx rest ih =>
    intro s
    simp only [processTxs]
    split
    · exact tip_processOutputs env tx.hash tx.outputs 0 s
    · show (processTxs env (processOutputs env tx.hash 0 s tx.outputs).1
        rest).1.tip = s.tip
      rw [ih _, tip_processOutputs]

/-- C4 counterexample — a concrete connected block with one bid output:
the handler's trace starts with the (successful) tip write, with the
committed bid mutation after it, so the tip is written *before* the
block's mutation commits, contradicting the claimed ordering. -/
theorem c4_counterexample :
    ((processBlock envW emptyDB
        ⟨[3], [⟨[2], [⟨Covenant.cbid [1], 5⟩]⟩]⟩).trace =
      [Action.aPutTip [3] true,
       Action.aAddBid "foo" ⟨[2], 0⟩ true,
       Action.aEmit (.ebid "foo" ⟨[2], 0⟩ 5),
       Action.aEmit (.eblockStats 0 0 0 0)]) ∧
    ¬tipAfterMutations (processBlock envW emptyDB
        ⟨[3], [⟨[2], [⟨Covenant.cbid [1], 5⟩]⟩]⟩).trace := by
  constructor
  · decide
  · intro h
    have := h (0, Action.aPutTip [3] true) (by decide)
      (1, Action.aAddBid "foo" ⟨[2], 0⟩ true) (by decide) rfl rfl
    omega

/-- C4 amended — the `connect` handler persists the new tip *first*
(`await this.adb.putTip(block.hash())`, http.js:105, before the output
walk): the tip write attempt is always the head of the handler's trace,
before any mutation, and when the tip write succeeds the stored tip is
the block's hash regardless of the block's mutations. -/
theorem c4_tip_written_before_mutations (env : ChainEnv) (s : DBState)
    (blk : Block) :
    ((processBlock env s blk).trace.head? =
      some (Action.aPutTip blk.hash env.tipOk)) ∧
    ((processBlock { env with tipOk := true } s blk).state.tip =
      some blk.hash) := by
  constructor
  · rfl
  · show (processTxs { env with tipOk := true }
      (if ({ env with tipOk := true } : ChainEnv).tipOk then
        { s with tip := some blk.hash } else s) blk.txs).1.tip = _
    rw [tip_processTxs]
    rfl

/-! ## C9: the "big spend" threshold (HTTPOptions, http.js:312-443) -/

/-- The options object passed to the `HTTPOptions` constructor (every
field optional; `none` is an absent property).  `bigSpendValue` is
carried to show that even a caller-supplied value is ignored: no
`fromOptions` branch reads it.  Object-valued fields (`node`, `adb`,
`logger`, `network`) and the derived `apiHash` are not modelled; no
settled property depends on them. -/
structure HTTPOptionsIn where
  apiKey : Option String := none
  noAuth : Option Bool := none
  cors : Option Bool := none
  prefixDir : Option String := none
  host : Option String := none
  port : Option Nat := none
  ssl : Option Bool := none
  keyFile : Option String := none
  certFile : Option String := none
  maxTxs : Option Nat := none
  bigSpendValue : Option Int := none
deriving Repr

/-- The constructed `HTTPOptions`.  `bigSpendValue` is `Option Int`
because neither the constructor (http.js:320-339) nor `fromOptions`
(http.js:348-432) ever assigns `this.bigSpendValue`: reading it yields
JavaScript `undefined`, embedded as `none`. -/
structure HTTPOpts where
  apiKey : String
  noAuth : Bool
  cors : Bool
  host : String
  port : Nat
  ssl : Bool
  maxTxs : Nat
  keyFile : Option String
  certFile : Option String
  bigSpendValue : Option Int
deriving Repr

/-- `HTTPOptions` construction (constructor defaults then `fromOptions`):
`randomKey` stands for the random base58 default API key and `rpcPort`
for `this.network.rpcPort`. -/
def HTTPOpts.fromOptions (randomKey : String) (rpcPort : Nat)
    (o : HTTPOptionsIn) : HTTPOpts :=
  let apiKey := o.apiKey.getD randomKey
  let host := o.host.getD "127.0.0.1"
  let noAuth0 := o.noAuth.getD false
  let noAuth :=
    if o.apiKey = none ∧ (host = "127.0.0.1" ∨ host = "::1") then true
    else noAuth0
  { apiKey := apiKey
    noAuth := noAuth
    cors := o.cors.getD false
    host := host
    port := o.port.getD rpcPort
    ssl := o.ssl.getD false
    maxTxs := o.maxTxs.getD 100
    keyFile := match o.keyFile, o.prefixDir with
      | some k, _ => some k
      | none, some p => some (p ++ "/key.pem")
      | none, none => none
    certFile := match o.certFile, o.prefixDir with
      | some c, _ => some c
      | none, some p => some (p ++ "/cert.pem")
      | none, none => none
    bigSpendValue := none }

/-- C9 — for every way of constructing the HTTP options,
`bigSpendValue` comes out `undefined`, so the NONE branch's
`value >= this.options.bigSpendValue` (http.js:122) is JavaScript
`value >= undefined`, which is `false` for every value: processing a
covenant-NONE output is always a no-op and `BIG_SPEND` is never emitted,
whatever the value.  (The claim — emit iff value ≥ the configured
threshold — describes the evident intent; the code never initializes the
threshold option, so the feature is dead.) -/
theorem c9_big_spend_never_emitted (randomKey : String) (rpcPort : Nat)
    (o : HTTPOptionsIn) (env : ChainEnv) (s : DBState) (txid : List Nat)
    (i : Nat) (v : Int) :
    ((HTTPOpts.fromOptions randomKey rpcPort o).bigSpendValue = none) ∧
    (processOutput
        { env with bigSpendValue :=
            (HTTPOpts.fromOptions randomKey rpcPort o).bigSpendValue }
        s txid i ⟨Covenant.cnone, v⟩ = (s, [], false)) := by
  exact ⟨rfl, by simp [processOutput, jsGE, HTTPOpts.fromOptions]⟩

/-! ## C6: the websocket fan-out (http.js `initSockets`, `handleAuth`) -/

/-- The event names `initSockets` (http.js:293-309) installs relay
listeners for.  `'revoke'` and `'block stats'` are not among them. -/
def relayedEvents : List String :=
  ["bid", "reveal", "register", "bid burned", "open", "big spend"]

/-- The emitted event name of each domain event (the first argument of
`this.emit(...)` in the `connect` handler). -/
def Event.name : Event → String
  | .ebid _ _ _ => "bid"
  | .ereveal _ _ _ => "reveal"
  | .eregister _ _ _ => "register"
  | .ebidBurned _ _ _ => "bid burned"
  | .erevoke _ _ _ => "revoke"
  | .ebigSpend _ _ => "big spend"
  | .eblockStats _ _ _ _ => "block stats"
  | .eopen _ => "open"

/-- `socket.hook('watch auction-notify')` (http.js:275-278): join the
`auction-notify` channel (joining is idempotent). -/
def watchChannel (joined : List Nat) (sid : Nat) : List Nat :=
  if sid ∈ joined then joined else sid :: joined

/-- `socket.hook('unwatch auction-notify')` (http.js:280-283): leave the
channel. -/
def unwatchChannel (joined : List Nat) (sid : Nat) : List Nat :=
  joined.filter (fun x => x ≠ sid)

/-- The relay listener body (http.js:299-308): when the emitted event's
name has a listener installed by `initSockets`, send the event name and
payload verbatim to every socket currently joined to `auction-notify`
(`this.to('auction-notify', event, data)`); an event name without a
listener is never forwarded at all. -/
def broadcast (joined : List Nat) (e : Event) : List (Nat × Event) :=
  if relayedEvents.contains e.name then joined.map (fun sid => (sid, e))
  else []

/-- C6 counterexample — a consumer joined to the channel before emission
receives neither a `REVOKE` event nor a `BLOCK_STATS` event: those two
event names are missing from `initSockets`' relay list, so they are
forwarded to nobody, contradicting "every domain event (including REVOKE
and BLOCK_STATS) is delivered to every joined consumer". -/
theorem c6_counterexample :
    ((0 : Nat) ∈ watchChannel [] 0) ∧
    (broadcast (watchChannel [] 0) (.erevoke "foo" ⟨[1], 0⟩ 5) = []) ∧
    (broadcast (watchChannel [] 0) (.eblockStats 0 0 0 0) = []) ∧
    (Event.name (.erevoke "foo" ⟨[1], 0⟩ 5) = "revoke") ∧
    (relayedEvents.contains "revoke" = false) ∧
    (relayedEvents.contains "block stats" = false) := by
  decide

/-- C6 amended — only events whose names are in `initSockets`' relay list
(`bid`, `reveal`, `register`, `bid burned`, `open`, `big spend`) are
delivered, verbatim, to exactly the consumers joined to the
`auction-notify` channel at emission time; a consumer not joined at
emission time never receives an event; `REVOKE` and `BLOCK_STATS`
emissions are forwarded to no consumer at all. -/
theorem c6_relay_delivery (e : Event) (joined : List Nat) (sid : Nat) :
    (relayedEvents.contains e.name = true →
      ((sid, e) ∈ broadcast joined e ↔ sid ∈ joined)) ∧
    (sid ∉ joined → ∀ e' : Event, (sid, e') ∉ broadcast joined e) ∧
    (∀ (n : String) (o : Outpoint) (v : Int),
      broadcast joined (.erevoke n o v) = []) ∧
    (∀ a b c d : Nat, broadcast joined (.eblockStats a b c d) = []) := by
  refine ⟨?_, ?_, ?_, ?_⟩
  · intro hr
    unfold broadcast
    rw [if_pos hr]
    constructor
    · intro h
      rcases List.mem_map.mp h with ⟨x, hx, hp⟩
      cases hp
      exact hx
    · intro h
      exact List.mem_map.mpr ⟨sid, h, rfl⟩
  · intro hs e' he'
    simp only [broadcast] at he'
    split at he'
    · rcases List.mem_map.mp he' with ⟨x, hx, hpair⟩
      cases hpair
      exact hs hx
    · cases he'
  · intro n o v
    simp [broadcast, relayedEvents, Event.name]
  · intro a b c d
    simp [broadcast, relayedEvents, Event.name]

/-- Witness for C6's amended theorem: consumer 3 (joined) receives a
relayed `BID` event; consumer 4 (not joined) does not. -/
theorem c6_witness :
    ((3, Event.ebid "foo" ⟨[1], 0⟩ 5) ∈
      broadcast [3] (.ebid "foo" ⟨[1], 0⟩ 5)) ∧
    ((4, Event.ebid "foo" ⟨[1], 0⟩ 5) ∉
      broadcast [3] (.ebid "foo" ⟨[1], 0⟩ 5)) := by
  constructor
  · exact ((c6_relay_delivery (.ebid "foo" ⟨[1], 0⟩ 5) [3] 3).1
      (by decide)).mpr (by decide)
  · exact (c6_relay_delivery (.ebid "foo" ⟨[1], 0⟩ 5) [3] 4).2.1
      (by decide) (Event.ebid "foo" ⟨[1], 0⟩ 5)

/-! ## C5: the byte-exact key layout and range-scan isolation

`layout.B = bdb.key('B', ['ascii', 'hash256', 'uint32'])`.  The `bdb` key
codec writes a variable-length `ascii` component with a one-byte size
followed by the raw bytes (this size byte is what makes
`layout.B.decode` able to parse the key left-to-right; `bdb` caps such
components at 255 bytes); `hash256` is 32 raw bytes and `uint32` is
big-endian.  `layout.B.min(name)`/`layout.B.max(name)` fill the hash and
index fields with their minimal/maximal byte values, and `db.keys`
iterates keys lexicographically (bytewise memcmp order) between the
bounds. -/

/-- The ascii bytes of a name. -/
def strBytes (s : String) : List Nat := s.data.map Char.toNat

/-- Big-endian 4-byte encoding of a `uint32`. -/
def beBytes4 (i : Nat) : List Nat :=
  [i / 16777216 % 256, i / 65536 % 256, i / 256 % 256, i % 256]

/-- Big-endian decoding of index bytes. -/
def beDec4 (l : List Nat) : Nat :=
  l.foldl (fun acc b => acc * 256 + b) 0

/-- The encoded `B`-family key over raw name bytes: tag byte `0x42`,
name-size byte, name bytes, 32 hash bytes, 4 big-endian index bytes. -/
def encB (nb : List Nat) (h : List Nat) (i : Nat) : List Nat :=
  66 :: nb.length :: (nb ++ (h ++ beBytes4 i))

/-- `layout.B.min(name)`: hash and index fields at their byte minimum. -/
def minB (nb : List Nat) : List Nat :=
  66 :: nb.length :: (nb ++ List.replicate 36 0)

/-- `layout.B.max(name)`: hash and index fields at their byte maximum. -/
def maxB (nb : List Nat) : List Nat :=
  66 :: nb.length :: (nb ++ List.replicate 36 255)

/-- Bytewise lexicographic `≤` on keys (LevelDB memcmp order; a strict
prefix sorts first). -/
def leBytes : List Nat → List Nat → Bool
  | [], _ => true
  | _ :: _, [] => false
  | a :: as, b :: bs =>
    if a < b then true else if b < a then false else leBytes as bs

/-- Whether key `k` falls in the scan range `[minB nb, maxB nb]` of the
`db.keys {gte, lte}` iteration in `getBids`. -/
def inRangeB (nb k : List Nat) : Bool :=
  leBytes (minB nb) k && leBytes k (maxB nb)

/-- `layout.B.decode`: skip the tag, read the size byte, skip the name,
read 32 hash bytes and the big-endian index. -/
def decodeBKey (k : List Nat) : Outpoint :=
  ⟨(k.drop (2 + k.getD 1 0)).take 32,
   beDec4 ((k.drop (2 + k.getD 1 0)).drop 32)⟩

/-- The encoded key of a named bid record. -/
def encodeBKey (name : String) (h : List Nat) (i : Nat) : List Nat :=
  encB (strBytes name) h i

/-- A `put` of a `B` key into the byte-keyed store (a key set). -/
def insertBKey (store : List (List Nat)) (k : List Nat) :
    List (List Nat) :=
  if k ∈ store then store else k :: store

/-- The store after an arbitrary interleaving of `addBid` membership-key
writes (each element: name, transaction hash, output index). -/
def buildBStore (ops : List (String × List Nat × Nat)) : List (List Nat) :=
  ops.foldl (fun st e => insertBKey st (encodeBKey e.1 e.2.1 e.2.2)) []

/-- `AuctionDB.getBids` at the byte level: the prefix range scan between
`layout.B.min(name)` and `layout.B.max(name)`, decoding each key in range
to an outpoint. -/
def getBidsB (store : List (List Nat)) (name : String) : List Outpoint :=
  (store.filter (fun k => inRangeB (strBytes name) k)).map decodeBKey

theorem leBytes_append_same (p xs ys : List Nat) :
    leBytes (p ++ xs) (p ++ ys) = leBytes xs ys := by
  induction p with
  | nil => rfl
  | cons a t ih => simp [leBytes, ih]

theorem leBytes_gt_head (x y : Nat) (u w : List Nat) (h : y < x) :
    leBytes (x :: u) (y :: w) = false := by
  have hnxy : ¬x < y := Nat.lt_asymm h
  simp [leBytes, hnxy, h]

theorem leBytes_diff (q : List Nat) (x y : Nat) (u w : List Nat)
    (h : y < x) : leBytes (q ++ x :: u) (q ++ y :: w) = false := by
  rw [leBytes_append_same]
  exact leBytes_gt_head x y u w h

theorem exists_first_diff :
    ∀ xs ys : List Nat, xs.length = ys.length → xs ≠ ys →
      ∃ (p : List Nat) (a b : Nat) (xs' ys' : List Nat),
        a ≠ b ∧ xs = p ++ a :: xs' ∧ ys = p ++ b :: ys' := by
  intro xs
  induction xs with
  | nil =>
    intro ys hl hne
    cases ys with
    | nil => exact absurd rfl hne
    | cons b u => cases hl
  | cons a t ih =>
    intro ys hl hne
    cases ys with
    | nil => cases hl
    | cons b u =>
      by_cases hab : a = b
      · subst hab
        have htu : t ≠ u := fun he => hne (by rw [he])
        obtain ⟨p, x, y, xs', ys', hxy, hx, hy⟩ :=
          ih u (by simpa using hl) htu
        exact ⟨a :: p, x, y, xs', ys', hxy, by rw [hx]; rfl,
          by rw [hy]; rfl⟩
      · exact ⟨[], a, b, t, u, hab, rfl, rfl⟩

/-- A key encoded for one name never falls in another name's scan range:
the size byte separates names of different lengths, and the first
differing name byte separates names of equal length. -/
theorem encB_not_inRange (b1 b2 h : List Nat) (i : Nat) (hne : b1 ≠ b2) :
    inRangeB b2 (encB b1 h i) = false := by
  rcases Nat.lt_trichotomy b1.length b2.length with hlt | heq | hgt
  · have hmin : leBytes (minB b2) (encB b1 h i) = false := by
      show leBytes ([66] ++ b2.length :: (b2 ++ List.replicate 36 0))
        ([66] ++ b1.length :: (b1 ++ (h ++ beBytes4 i))) = false
      exact leBytes_diff [66] b2.length b1.length _ _ hlt
    simp [inRangeB, hmin]
  · obtain ⟨p, a, c, xs', ys', hac, h1, h2⟩ :=
      exists_first_diff b1 b2 heq hne
    rw [h1, h2] at heq
    rcases Nat.lt_trichotomy a c with hlt2 | heq2 | hgt2
    · have hmin : leBytes (minB b2) (encB b1 h i) = false := by
        unfold minB encB
        rw [h1, h2, heq, List.append_assoc p (c :: ys') _,
          List.append_assoc p (a :: xs') _, List.cons_append,
          List.cons_append]
        exact leBytes_diff (66 :: (p ++ c :: ys').length :: p) c a
          (ys' ++ List.replicate 36 0) (xs' ++ (h ++ beBytes4 i)) hlt2
      simp [inRangeB, hmin]
    · exact absurd heq2 hac
    · have hmax : leBytes (encB b1 h i) (maxB b2) = false := by
        unfold maxB encB
        rw [h1, h2, heq, List.append_assoc p (c :: ys') _,
          List.append_assoc p (a :: xs') _, List.cons_append,
          List.cons_append]
        exact leBytes_diff (66 :: (p ++ c :: ys').length :: p) a c
          (xs' ++ (h ++ beBytes4 i)) (ys' ++ List.replicate 36 255) hgt2
      simp [inRangeB, hmax]
  · have hmax : leBytes (encB b1 h i) (maxB b2) = false := by
      show leBytes ([66] ++ b1.length :: (b1 ++ (h ++ beBytes4 i)))
        ([66] ++ b2.length :: (b2 ++ List.replicate 36 255)) = false
      exact leBytes_diff [66] b1.length b2.length _ _ hgt
    simp [inRangeB, hmax]

/-- Decoding inverts encoding for well-formed records (32-byte hash,
32-bit index). -/
theorem decodeBKey_encB (nb h : List Nat) (i : Nat) (hh : h.length = 32)
    (hi : i < 4294967296) : decodeBKey (encB nb h i) = ⟨h, i⟩ := by
  have hdrop : (encB nb h i).drop (2 + (encB nb h i).getD 1 0) =
      h ++ beBytes4 i := by
    show (66 :: nb.length :: (nb ++ (h ++ beBytes4 i))).drop
      (2 + nb.length) = h ++ beBytes4 i
    rw [Nat.add_comm 2 nb.length]
    show (nb ++ (h ++ beBytes4 i)).drop nb.length = h ++ beBytes4 i
    exact List.drop_left nb (h ++ beBytes4 i)
  unfold decodeBKey
  rw [hdrop]
  have htake : (h ++ beBytes4 i).take 32 = h := by
    rw [← hh]; exact List.take_left h (beBytes4 i)
  have hdrop2 : (h ++ beBytes4 i).drop 32 = beBytes4 i := by
    rw [← hh]; exact List.drop_left h (beBytes4 i)
  rw [htake, hdrop2]
  have : beDec4 (beBytes4 i) = i := by
    simp only [beDec4, beBytes4, List.foldl_cons, List.foldl_nil]
    omega
  rw [this]

theorem mem_insertBKey (st : List (List Nat)) (x k : List Nat)
    (h : k ∈ insertBKey st x) : k ∈ st ∨ k = x := by
  unfold insertBKey at h
  split at h
  · exact Or.inl h
  · rcases List.mem_cons.mp h with h' | h'
    · exact Or.inr h'
    · exact Or.inl h'

theorem mem_buildBStore_aux (ops : List (String × List Nat × Nat)) :
    ∀ st k, k ∈ ops.foldl
        (fun st e => insertBKey st (encodeBKey e.1 e.2.1 e.2.2)) st →
      k ∈ st ∨ ∃ e ∈ ops, k = encodeBKey e.1 e.2.1 e.2.2 := by
  induction ops with
  | nil => intro st k h; exact Or.inl h
  | cons e rest ih =>
    intro st k h
    simp only [List.foldl_cons] at h
    rcases ih _ k h with h' | ⟨e', he', hk⟩
    · rcases mem_insertBKey _ _ _ h' with h'' | h''
      · exact Or.inl h''
      · exact Or.inr ⟨e, List.mem_cons_self _ _, h''⟩
    · exact Or.inr ⟨e', List.mem_cons_of_mem _ he', hk⟩

theorem mem_buildBStore (ops : List (String × List Nat × Nat))
    (k : List Nat) (h : k ∈ buildBStore ops) :
    ∃ e ∈ ops, k = encodeBKey e.1 e.2.1 e.2.2 := by
  rcases mem_buildBStore_aux ops [] k h with h' | h'
  · cases h'
  · exact h'

theorem char_toNat_inj {a b : Char} (h : a.toNat = b.toNat) : a = b := by
  rcases a with ⟨⟨⟨an, ah⟩⟩, av⟩
  rcases b with ⟨⟨⟨bn, bh⟩⟩, bv⟩
  have hn : an = bn := h
  subst hn
  rfl

theorem strBytes_inj {s t : String} (h : strBytes s = strBytes t) :
    s = t := by
  have hd : s.data = t.data :=
    List.map_injective_iff.mpr (fun a b hab => char_toNat_inj hab) h
  cases s
  cases t
  exact congrArg String.mk hd

/-- C5 — for distinct names `n1 ≠ n2` (one may be a byte-prefix of the
other) and any interleaving of well-formed `addBid` key writes, an
outpoint whose records were all written under `n1` never appears in the
range scan `getBids(n2)`: the size-prefixed name component makes the
scan bounds exclude every foreign key. -/
theorem c5_scan_isolated (ops : List (String × List Nat × Nat))
    (n1 n2 : String) (o : Outpoint)
    (hvalid : ∀ e ∈ ops, e.2.1.length = 32 ∧ e.2.2 < 4294967296)
    (hn : n1 ≠ n2)
    (honly : ∀ e ∈ ops, e.2.1 = o.hash ∧ e.2.2 = o.index → e.1 = n1) :
    o ∉ getBidsB (buildBStore ops) n2 := by
  intro hmem
  rcases List.mem_map.mp hmem with ⟨k, hk, hdec⟩
  obtain ⟨hkstore, hkrange⟩ := List.mem_filter.mp hk
  rcases mem_buildBStore ops k hkstore with ⟨e, he, rfl⟩
  by_cases hname : e.1 = n2
  · obtain ⟨hlen, hidx⟩ := hvalid e he
    rw [show encodeBKey e.1 e.2.1 e.2.2 = encB (strBytes e.1) e.2.1 e.2.2
        from rfl, decodeBKey_encB _ _ _ hlen hidx] at hdec
    have hmatch : e.2.1 = o.hash ∧ e.2.2 = o.index := by
      constructor
      · rw [← hdec]
      · rw [← hdec]
    have he1 : e.1 = n1 := honly e he hmatch
    exact hn (by rw [← he1, hname])
  · have hsb : strBytes e.1 ≠ strBytes n2 :=
      fun hcontra => hname (strBytes_inj hcontra)
    have : inRangeB (strBytes n2) (encodeBKey e.1 e.2.1 e.2.2) = false :=
      encB_not_inRange (strBytes e.1) (strBytes n2) e.2.1 e.2.2 hsb
    rw [this] at hkrange
    cases hkrange

/-- Witness for C5 at the spec's own example: an outpoint indexed under
`"alice"` does not appear in `getBids("bob")`. -/
theorem c5_witness :
    (⟨List.replicate 32 1, 0⟩ : Outpoint) ∉
      getBidsB (buildBStore
        [("alice", List.replicate 32 1, 0),
         ("bob", List.replicate 32 2, 7)]) "bob" :=
  c5_scan_isolated
    [("alice", List.replicate 32 1, 0), ("bob", List.replicate 32 2, 7)]
    "alice" "bob" ⟨List.replicate 32 1, 0⟩
    (by decide) (by decide) (by decide)

end AuctionNotify
